import Mathlib

/-!
Verification of the NSF-HiFiGAN ONNX export script
(src/onnx/export/export_nsf_hifigan.py).

Time series (one batch element, one harmonic channel) are modelled as
functions from the time index to an ordered field; tensors whose shape
matters are modelled as (nested) lists.  Floating-point operations are
read in exact arithmetic, as the claims require: the definitions are
polymorphic over a linear ordered field with a floor so they stay
executable over the rationals, and the theorems instantiate them at the
reals where transcendental functions (sin, tanh) are involved.
-/

set_option linter.unusedSectionVars false

namespace NsfHifigan

open Real

variable {α : Type*} [LinearOrderedField α] [FloorRing α]

/-- Python style fmod with modulus 1 (torch.Tensor.fmod(1.)): subtract the
truncation toward zero, so the result has the sign of the argument. -/
def fmod1 (x : α) : α := x - (if 0 ≤ x then ((⌊x⌋ : ℤ) : α) else ((⌈x⌉ : ℤ) : α))

/-- torch.cumsum along the time dimension: partial sums including the
current entry. -/
def cumsum (f : ℕ → α) (t : ℕ) : α := ∑ i ∈ Finset.range (t + 1), f i

/-- The fixed (2,1)-kernel Conv2d stored in SineGen.diff, weight
[[-1],[1]], stride 1, no padding, no bias, applied along the time axis of
a single channel: out t = (-1) * x t + 1 * x (t+1). -/
def convDiff (x : ℕ → α) : ℕ → α := fun t => (-1) * x t + 1 * x (t + 1)

/-- tmp_over_one = torch.cumsum(rad_values, dim=1).fmod(1.). -/
def tmpOverOne (rad : ℕ → α) : ℕ → α := fun t => fmod1 (cumsum rad t)

/-- cumsum_shift = cat(zeros(1,1,dim), (diff(tmp_over_one) < 0).float()):
entry 0 is the prepended zero, entry t+1 is 1 when the difference
tmp_over_one (t+1) - tmp_over_one t is negative and 0 otherwise. -/
def cumsumShift (rad : ℕ → α) : ℕ → α := fun t =>
  match t with
  | 0 => 0
  | Nat.succ u => if convDiff (tmpOverOne rad) u < 0 then 1 else 0

/-- The overflow-corrected phase torch.cumsum(rad_values - cumsum_shift,
dim=1) of SineGen._f02sine; the sine excitation of the last line of
_f02sine is sin(shiftedPhase rad t * (2 * pi)). -/
def shiftedPhase (rad : ℕ → α) (t : ℕ) : α :=
  cumsum (fun i => rad i - cumsumShift rad i) t

/-- rad_values for one harmonic channel: (f0 / sampling_rate).fmod(1.)
with the initial random phase r (torch.rand, zero for the fundamental
channel) added at time step 0. -/
def radValues (sr : α) (f0 : ℕ → α) (r : α) : ℕ → α :=
  fun t => fmod1 (f0 t / sr) + (if t = 0 then r else 0)

/-- Conv2d with in and out channels 1, kernel size (2,1), stride (1,1),
no padding, dilation (1,1), no bias, with weight [[[[w00], [w10]]]], on an
input of shape (length, dim) given as the list of its time rows:
out[t][d] = w00 * in[t][d] + w10 * in[t+1][d]. -/
def conv2d21 (w00 w10 : α) (x : List (List α)) : List (List α) :=
  List.zipWith (fun r0 r1 => List.zipWith (fun a b => w00 * a + w10 * b) r0 r1) x x.tail

/-- SineGen.diff: the conv2d21 layer with weight [[[[-1.], [1.]]]]. -/
def diffLayer (x : List (List α)) : List (List α) := conv2d21 (-1) 1 x

/-- uv = (f0 > voiced_threshold).float() in SineGen.forward. -/
def uvFlag (thr : α) (f0 : ℕ → α) : ℕ → α := fun t => if thr < f0 t then 1 else 0

/-- noise_amp = uv * noise_std + (1 - uv) * (sine_amp / 3) in
SineGen.forward. -/
def noiseAmp (amp nstd thr : α) (f0 : ℕ → α) : ℕ → α :=
  fun t => uvFlag thr f0 t * nstd + (1 - uvFlag thr f0 t) * (amp / 3)

/-- The excitation returned by SineGen.forward for one harmonic channel:
sine_waves * uv + noise, with sine_waves = _f02sine(fn) * sine_amp and
noise = noise_amp * randn; sinesv is the _f02sine output of the channel
and eps the standard normal sample. -/
def sineGenOut (amp nstd thr : α) (f0 sinesv eps : ℕ → α) : ℕ → α :=
  fun t => (sinesv t * amp) * uvFlag thr f0 t + noiseAmp amp nstd thr f0 t * eps t

/-- fn = torch.multiply(f0, FloatTensor([[range(1, harmonic_num + 2)]]))
in SineGen.forward: the harmonic channel row at one time step, value
f0 * [1, 2, ..., harmonic_num + 1]. -/
def harmonicRow (harmonicNum : ℕ) (v : α) : List α :=
  (List.range (harmonicNum + 1)).map (fun k => v * ((k + 1 : ℕ) : α))

/-- Generator.__init__ instantiates SourceModuleHnNSF with harmonic_num=8. -/
def generatorHarmonicNum : ℕ := 8

/-- The affine combination computed by the Linear(harmonic_num + 1, 1)
layer l_linear of SourceModuleHnNSF on one time step: w . s + b; l_tanh
is applied on top of it (stated in the theorems). -/
def linearMerge (w : List α) (b : α) (s : List α) : α :=
  (List.zipWith (fun wi si => wi * si) w s).sum + b

/-- One convolution module carrying its weight-norm flag: weight_norm
sets the flag, remove_weight_norm clears it. -/
structure ConvMod where
  weightNormed : Bool
deriving DecidableEq

/-- Modelled from the spec: ResBlock1 and ResBlock2 come from
modules.nsf_hifigan.models, which is not part of this fragment; per the
spec ("Weight normalization: a reparameterization of convolution weights
removed before inference export") a residual block holds weight-normalized
convolutions and its remove_weight_norm method removes that
reparameterization from the block. -/
structure ResBlockMod where
  weightNormed : Bool
deriving DecidableEq

def ResBlockMod.removeWeightNorm (_b : ResBlockMod) : ResBlockMod := ⟨false⟩

/-- The weight-norm-relevant state of Generator: conv_pre, the upsampling
ConvTranspose1d list ups, the residual blocks, conv_post, and whether
eval() has been called. -/
structure GeneratorMod where
  convPre : ConvMod
  ups : List ConvMod
  resblocks : List ResBlockMod
  convPost : ConvMod
  evalMode : Bool
deriving DecidableEq

/-- Generator.__init__: conv_pre, every entry of ups and conv_post are
wrapped in weight_norm; the residual blocks are created weight-normalized
(spec-modelled, see ResBlockMod); the module starts in training mode. -/
def GeneratorMod.init (nUps nRes : ℕ) : GeneratorMod :=
  { convPre := ⟨true⟩
    ups := List.replicate nUps ⟨true⟩
    resblocks := List.replicate nRes ⟨true⟩
    convPost := ⟨true⟩
    evalMode := false }

/-- Generator.remove_weight_norm: removes the weight-norm
reparameterization from every up, from every residual block, from
conv_pre and from conv_post. -/
def GeneratorMod.removeWeightNorm (g : GeneratorMod) : GeneratorMod :=
  { g with
    ups := g.ups.map (fun _ => ⟨false⟩)
    resblocks := g.resblocks.map ResBlockMod.removeWeightNorm
    convPre := ⟨false⟩
    convPost := ⟨false⟩ }

/-- Generator.eval(): switches the module out of training mode, leaving
the weight-norm flags unchanged. -/
def GeneratorMod.evalMode! (g : GeneratorMod) : GeneratorMod :=
  { g with evalMode := true }

/-- load_model: builds the generator, loads the checkpoint state dict
(which only fills parameter values), calls eval() and then
remove_weight_norm(); the returned module is what torch.onnx.export
traces. -/
def loadModel (nUps nRes : ℕ) : GeneratorMod :=
  GeneratorMod.removeWeightNorm (GeneratorMod.evalMode! (GeneratorMod.init nUps nRes))

/-- Shape entry of an ONNX tensor type: a concrete dim_value or a
symbolic dim_param. -/
inductive ShapeDim where
  | value (n : ℕ)
  | param (s : String)
deriving DecidableEq

/-- onnx value info: name, element type and shape. -/
structure ValueInfo where
  name : String
  elemType : ℕ
  shape : List ShapeDim
deriving DecidableEq

/-- The parts of an ONNX graph touched by simplify. -/
structure OnnxGraph where
  input : List ValueInfo
  output : List ValueInfo
deriving DecidableEq

/-- onnx.TensorProto.FLOAT. -/
def TensorProtoFloat : ℕ := 1

/-- dim_value of a shape entry (0 for a symbolic dim, as in onnx). -/
def ShapeDim.dimValue : ShapeDim → ℕ
  | .value n => n
  | .param _ => 0

/-- The default used when indexing an empty value-info list; the Python
code would raise there, so the theorems assume nonempty lists. -/
def emptyValueInfo : ValueInfo := ⟨"", 0, []⟩

/-- The output rewrite at the top of simplify: a new value info with the
same name as the first graph output, element type FLOAT and shape
(first input dim 0 dim_value, "n_samples"), replacing output[0]. -/
def fixOutput (m : OnnxGraph) : OnnxGraph :=
  { m with output :=
      { name := (m.output.headD emptyValueInfo).name
        elemType := TensorProtoFloat
        shape := [ShapeDim.value
            (((m.input.headD emptyValueInfo).shape.headD (ShapeDim.value 0)).dimValue),
          ShapeDim.param "n_samples"] } :: m.output.tail }

/-- simplify(src, target): rewrites the first output value info, runs
onnxsim.simplify with include_subgraph=True (the simplifier is an
abstract argument returning the simplified model and the check flag),
asserts the check and saves to the target on success; the result is the
model written to the target, or the assertion message on failure (in
which case nothing is written). -/
def simplifyExport (simpFn : OnnxGraph → OnnxGraph × Bool) (src : OnnxGraph) :
    Except String OnnxGraph :=
  let res := simpFn (fixOutput src)
  if res.2 then Except.ok res.1
  else Except.error "Simplified ONNX model could not be validated"

/-- The arguments of the torch.onnx.export call in export(path). -/
structure ExportArgs where
  path : String
  opsetVersion : ℕ
  inputNames : List String
  outputNames : List String
  dynamicAxes : List (String × List (ℕ × String))
deriving DecidableEq

/-- One observable step of the script entry point. -/
inductive ScriptStep where
  | exportCall (args : ExportArgs)
  | simplifyCall (src target : String)
deriving DecidableEq

/-- export(path): the torch.onnx.export call with opset 11, inputs mel
and f0 each with dynamic axis n_frames on dimension 1, and output
waveform. -/
def exportStep (path : String) : ScriptStep :=
  .exportCall
    { path := path
      opsetVersion := 11
      inputNames := ["mel", "f0"]
      outputNames := ["waveform"]
      dynamicAxes := [("mel", [(1, "n_frames")]), ("f0", [(1, "n_frames")])] }

/-- The __main__ block: export to onnx/assets/nsf_hifigan.onnx, then
simplify with source and target both equal to that path. -/
def mainSteps : List ScriptStep :=
  [exportStep "onnx/assets/nsf_hifigan.onnx",
    ScriptStep.simplifyCall "onnx/assets/nsf_hifigan.onnx" "onnx/assets/nsf_hifigan.onnx"]

/-- functional.leaky_relu with negative slope s. -/
def leakyRelu (s x : α) : α := if 0 ≤ x then x else s * x

/-- The closing lines of Generator.forward after the upsampling loop:
x = leaky_relu(x) (default slope 0.01), then x = conv_post(x); the
upsampling loop and conv_post are abstract functions on time series, and
torch.tanh is applied elementwise on top of this value (stated in the
theorems); the final x.squeeze(1) only removes the channel dimension. -/
def generatorPreTanh (convPost : (ℕ → α) → ℕ → α) (x : ℕ → α) : ℕ → α :=
  fun t => convPost (fun u => leakyRelu (1 / 100) (x u)) t

/-- mel.transpose(2, 1) in NsfHiFiGAN.forward: swap the frame axis and
the mel-bin axis. -/
def transposeMel (mel : ℕ → ℕ → α) : ℕ → ℕ → α := fun m t => mel t m

/-- The mel preprocessing of NsfHiFiGAN.forward: transpose, then multiply
every element by the constant 2.30259. -/
def melPre (mel : ℕ → ℕ → α) : ℕ → ℕ → α :=
  fun m t => transposeMel mel m t * (2.30259 : α)

/-- NsfHiFiGAN.forward: the generator applied to the preprocessed mel and
the unchanged f0. -/
def nsfForward {β : Type*} (gen : (ℕ → ℕ → α) → (ℕ → α) → β)
    (mel : ℕ → ℕ → α) (f0 : ℕ → α) : β :=
  gen (melPre mel) f0

/-- The pre-tanh value of the waveform produced through NsfHiFiGAN.forward:
the generator body (upsampling loop) applied to the preprocessed mel and
f0, then the Generator.forward tail. -/
def nsfPreTanh (convPost : (ℕ → α) → ℕ → α)
    (body : (ℕ → ℕ → α) → (ℕ → α) → ℕ → α)
    (mel : ℕ → ℕ → α) (f0 : ℕ → α) : ℕ → α :=
  nsfForward (fun m g => generatorPreTanh convPost (body m g)) mel f0

lemma cumsum_zero (f : ℕ → α) : cumsum f 0 = f 0 := by
  simp [cumsum]

lemma cumsum_succ (f : ℕ → α) (t : ℕ) :
    cumsum f (t + 1) = cumsum f t + f (t + 1) := by
  simp [cumsum, Finset.sum_range_succ]

lemma cumsum_sub (f g : ℕ → α) (t : ℕ) :
    cumsum (fun i => f i - g i) t = cumsum f t - cumsum g t := by
  simp [cumsum, Finset.sum_sub_distrib]

lemma cumsumShift_mem (rad : ℕ → α) (t : ℕ) :
    cumsumShift rad t = 0 ∨ cumsumShift rad t = 1 := by
  cases t with
  | zero => left; rfl
  | succ u =>
      by_cases h : convDiff (tmpOverOne rad) u < 0
      · right; simp [cumsumShift, h]
      · left; simp [cumsumShift, h]

lemma cumsum_cumsumShift_int (rad : ℕ → α) (t : ℕ) :
    ∃ n : ℤ, cumsum (cumsumShift rad) t = (n : α) := by
  induction t with
  | zero =>
      refine ⟨0, ?_⟩
      simp [cumsum_zero, cumsumShift]
  | succ u ih =>
      obtain ⟨n, hn⟩ := ih
      rcases cumsumShift_mem rad (u + 1) with h | h
      · exact ⟨n, by rw [cumsum_succ, hn, h, add_zero]⟩
      · exact ⟨n + 1, by rw [cumsum_succ, hn, h]; push_cast; ring⟩

/-- C1: in exact real arithmetic the overflow-corrected phase of
SineGen._f02sine yields exactly the sine values of the naive phase: for
every f0 input, every random initial phase and every time step t,
sin(2*pi * cumsum(rad_values - cumsum_shift)[t]) equals
sin(2*pi * cumsum(rad_values)[t]), because the cumulative shift is an
integer and shifting the argument of sin by an integer multiple of 2*pi
leaves it unchanged. -/
theorem f02sine_eq_naive (sr : ℝ) (f0 : ℕ → ℝ) (r : ℝ) (t : ℕ) :
    Real.sin (shiftedPhase (radValues sr f0 r) t * (2 * π)) =
      Real.sin (cumsum (radValues sr f0 r) t * (2 * π)) := by
  obtain ⟨n, hn⟩ := cumsum_cumsumShift_int (radValues sr f0 r) t
  have hphase : shiftedPhase (radValues sr f0 r) t =
      cumsum (radValues sr f0 r) t - (n : ℝ) := by
    rw [shiftedPhase, cumsum_sub, hn]
  rw [hphase, sub_mul]
  exact Real.sin_sub_int_mul_two_pi _ n

lemma fmod1_of_nonneg {x : α} (hx : 0 ≤ x) : fmod1 x = Int.fract x := by
  simp only [fmod1, if_pos hx]
  exact Int.self_sub_floor x

lemma fmod1_nonneg {x : α} (hx : 0 ≤ x) : 0 ≤ fmod1 x := by
  rw [fmod1_of_nonneg hx]; exact Int.fract_nonneg x

lemma fmod1_lt_one {x : α} (hx : 0 ≤ x) : fmod1 x < 1 := by
  rw [fmod1_of_nonneg hx]; exact Int.fract_lt_one x

lemma cumsum_nonneg {f : ℕ → α} (hf : ∀ i, 0 ≤ f i) (t : ℕ) :
    0 ≤ cumsum f t :=
  Finset.sum_nonneg fun i _ => hf i

/-- Core invariant behind the overflow correction: when every rad entry is
nonnegative and every entry after time 0 is below 1, the running sum of
cumsum_shift equals the number of times the floor of the running phase has
been incremented since time 0. -/
lemma cumsum_cumsumShift_eq_floor {rad : ℕ → α}
    (h0 : ∀ i, 0 ≤ rad i) (h1 : ∀ i, rad (i + 1) < 1) (t : ℕ) :
    cumsum (cumsumShift rad) t =
      ((⌊cumsum rad t⌋ : ℤ) : α) - ((⌊rad 0⌋ : ℤ) : α) := by
  induction t with
  | zero =>
      simp [cumsum_zero, cumsumShift]
  | succ u ih =>
      have ha : 0 ≤ cumsum rad u := cumsum_nonneg h0 u
      have ha1 : 0 ≤ cumsum rad (u + 1) := cumsum_nonneg h0 (u + 1)
      have hstep : cumsum rad (u + 1) = cumsum rad u + rad (u + 1) :=
        cumsum_succ rad u
      have hd0 : 0 ≤ rad (u + 1) := h0 (u + 1)
      have hd1 : rad (u + 1) < 1 := h1 u
      have htmp : ∀ v, 0 ≤ cumsum rad v →
          tmpOverOne rad v = Int.fract (cumsum rad v) := fun v hv => by
        simp [tmpOverOne, fmod1_of_nonneg hv]
      rw [cumsum_succ, ih]
      by_cases hc : Int.fract (cumsum rad u) + rad (u + 1) < 1
      · -- no wrap-around: the floor is unchanged and the shift entry is 0
        have hfloor : ⌊cumsum rad (u + 1)⌋ = ⌊cumsum rad u⌋ := by
          rw [hstep]
          rw [Int.floor_eq_iff]
          constructor
          · exact le_add_of_le_of_nonneg (Int.floor_le _) hd0
          · have : cumsum rad u + rad (u + 1) =
                ((⌊cumsum rad u⌋ : ℤ) : α) + (Int.fract (cumsum rad u) + rad (u + 1)) := by
              rw [Int.fract]; ring
            rw [this]
            linarith
        have hfract : Int.fract (cumsum rad (u + 1)) =
            Int.fract (cumsum rad u) + rad (u + 1) := by
          rw [Int.fract, hfloor, hstep, Int.fract]; ring
        have hshift : cumsumShift rad (u + 1) = 0 := by
          have hge : ¬ convDiff (tmpOverOne rad) u < 0 := by
            rw [convDiff]
            rw [htmp u ha, htmp (u + 1) ha1, hfract]
            linarith
          simp [cumsumShift, hge]
        rw [hshift, hfloor]
        ring
      · -- wrap-around: the floor increments and the shift entry is 1
        push_neg at hc
        have hfloor : ⌊cumsum rad (u + 1)⌋ = ⌊cumsum rad u⌋ + 1 := by
          rw [hstep]
          rw [Int.floor_eq_iff]
          have hrw : cumsum rad u + rad (u + 1) =
              ((⌊cumsum rad u⌋ : ℤ) : α) + (Int.fract (cumsum rad u) + rad (u + 1)) := by
            rw [Int.fract]; ring
          constructor
          · rw [hrw]; push_cast; linarith
          · rw [hrw]
            have hfr : Int.fract (cumsum rad u) < 1 := Int.fract_lt_one _
            push_cast
            linarith
        have hfract : Int.fract (cumsum rad (u + 1)) =
            Int.fract (cumsum rad u) + rad (u + 1) - 1 := by
          rw [Int.fract, hfloor, hstep, Int.fract]
          push_cast
          ring
        have hshift : cumsumShift rad (u + 1) = 1 := by
          have hlt : convDiff (tmpOverOne rad) u < 0 := by
            rw [convDiff]
            rw [htmp u ha, htmp (u + 1) ha1, hfract]
            linarith
          simp [cumsumShift, hlt]
        rw [hshift, hfloor]
        push_cast
        ring

/-- Under the same hypotheses, the shifted cumulative phase equals the
fractional part of the naive phase plus the floor of the initial entry. -/
lemma shiftedPhase_eq {rad : ℕ → α}
    (h0 : ∀ i, 0 ≤ rad i) (h1 : ∀ i, rad (i + 1) < 1) (t : ℕ) :
    shiftedPhase rad t = Int.fract (cumsum rad t) + ((⌊rad 0⌋ : ℤ) : α) := by
  rw [shiftedPhase, cumsum_sub, cumsum_cumsumShift_eq_floor h0 h1, Int.fract]
  ring

lemma radValues_nonneg {sr r : ℝ} {f0 : ℕ → ℝ}
    (hsr : 0 < sr) (hf0 : ∀ i, 0 ≤ f0 i) (hr0 : 0 ≤ r) (i : ℕ) :
    0 ≤ radValues sr f0 r i := by
  have hq : 0 ≤ f0 i / sr := div_nonneg (hf0 i) hsr.le
  have := fmod1_nonneg hq
  unfold radValues
  split <;> [linarith; linarith]

lemma radValues_tail_lt_one {sr r : ℝ} {f0 : ℕ → ℝ}
    (hsr : 0 < sr) (hf0 : ∀ i, 0 ≤ f0 i) (i : ℕ) :
    radValues sr f0 r (i + 1) < 1 := by
  have hq : 0 ≤ f0 (i + 1) / sr := div_nonneg (hf0 (i + 1)) hsr.le
  have := fmod1_lt_one hq
  simp only [radValues, Nat.succ_ne_zero, if_neg]
  simpa using this

/-- C2: for nonnegative f0 the shifted cumulative phase of
SineGen._f02sine stays in the fixed interval [0, 2) at every time step,
independent of the sequence length, while the uncorrected cumsum of the
rad values can exceed any bound for a suitable f0 (here f0 = sr/2). -/
theorem shiftedPhase_bounded (sr r : ℝ) (f0 : ℕ → ℝ) (t : ℕ) (B : ℝ)
    (hsr : 0 < sr) (hf0 : ∀ i, 0 ≤ f0 i) (hr0 : 0 ≤ r) (hr1 : r < 1) :
    (0 ≤ shiftedPhase (radValues sr f0 r) t ∧
      shiftedPhase (radValues sr f0 r) t < 2) ∧
    ∃ u, B < cumsum (radValues sr (fun _ => sr / 2) 0) u := by
  constructor
  · have h0 : ∀ i, 0 ≤ radValues sr f0 r i := radValues_nonneg hsr hf0 hr0
    have h1 : ∀ i, radValues sr f0 r (i + 1) < 1 :=
      radValues_tail_lt_one hsr hf0
    have hrad0 : radValues sr f0 r 0 < 2 := by
      have hq : 0 ≤ f0 0 / sr := div_nonneg (hf0 0) hsr.le
      have := fmod1_lt_one hq
      simp only [radValues, if_pos rfl, eq_self_iff_true, if_true]
      linarith
    have hfl0 : (0 : ℤ) ≤ ⌊radValues sr f0 r 0⌋ := Int.floor_nonneg.mpr (h0 0)
    have hfl1 : ⌊radValues sr f0 r 0⌋ < 2 := Int.floor_lt.mpr (by exact_mod_cast hrad0)
    rw [shiftedPhase_eq h0 h1]
    have hfr0 : 0 ≤ Int.fract (cumsum (radValues sr f0 r) t) := Int.fract_nonneg _
    have hfr1 : Int.fract (cumsum (radValues sr f0 r) t) < 1 := Int.fract_lt_one _
    have hcast0 : (0 : ℝ) ≤ ((⌊radValues sr f0 r 0⌋ : ℤ) : ℝ) := by exact_mod_cast hfl0
    have hcast1 : ((⌊radValues sr f0 r 0⌋ : ℤ) : ℝ) ≤ 1 := by
      have : ⌊radValues sr f0 r 0⌋ ≤ 1 := by omega
      exact_mod_cast this
    constructor <;> linarith
  · have hhalf : ∀ i, radValues sr (fun _ => sr / 2) 0 i = 1 / 2 := by
      intro i
      have hq : sr / 2 / sr = 1 / 2 := by
        field_simp
        ring
      have hfm : fmod1 ((1 : ℝ) / 2) = 1 / 2 := by
        rw [fmod1_of_nonneg (by norm_num)]
        rw [Int.fract_eq_self.mpr (by norm_num)]
      simp only [radValues, hq, hfm, ite_self, add_zero]
    obtain ⟨n, hn⟩ := exists_nat_gt B
    refine ⟨2 * n, ?_⟩
    have hsum : cumsum (radValues sr (fun _ => sr / 2) 0) (2 * n) =
        ((2 * n + 1 : ℕ) : ℝ) * (1 / 2) := by
      rw [cumsum, Finset.sum_congr rfl fun i _ => hhalf i,
        Finset.sum_const, Finset.card_range, nsmul_eq_mul]
    rw [hsum]
    push_cast
    linarith

/-- Witness for shiftedPhase_bounded at sr = 1, r = 0, f0 constant 1,
t = 7, B = 5. -/
theorem shiftedPhase_bounded_witness :
    (0 ≤ shiftedPhase (radValues 1 (fun _ => (1 : ℝ)) 0) 7 ∧
      shiftedPhase (radValues 1 (fun _ => (1 : ℝ)) 0) 7 < 2) ∧
    ∃ u, (5 : ℝ) < cumsum (radValues 1 (fun _ => (1 : ℝ) / 2) 0) u :=
  shiftedPhase_bounded 1 0 (fun _ => (1 : ℝ)) 7 5 zero_lt_one
    (fun _ => zero_le_one) le_rfl zero_lt_one

/-- C3: the fixed-weight bias-free Conv2d SineGen.diff, kernel (2,1) and
weight [[-1],[1]], computes exact first differences along the time axis:
on an input of shape (L, dim) with L >= 2 the output has shape (L-1, dim)
and its entry at (t, d) is input[t+1][d] - input[t][d], i.e. it is
torch.diff along the time dimension. -/
theorem diffLayer_eq_torch_diff (x : List (List ℚ)) (dim t d : ℕ)
    (hdim : ∀ r ∈ x, r.length = dim) (hL : 2 ≤ x.length)
    (ht : t < x.length - 1) (hd : d < dim) :
    (diffLayer x).length = x.length - 1 ∧
    ((diffLayer x).getD t []).getD d 0 =
      (x.getD (t + 1) []).getD d 0 - (x.getD t []).getD d 0 := by
  have hlen : (diffLayer x).length = x.length - 1 := by
    simp [diffLayer, conv2d21, List.length_zipWith, List.length_tail]
  refine ⟨hlen, ?_⟩
  have htx : t < x.length := by omega
  have htx1 : t + 1 < x.length := by omega
  have httail : t < x.tail.length := by rw [List.length_tail]; omega
  have ht2 : t < (diffLayer x).length := by rw [hlen]; exact ht
  have hrow0 : (x[t]).length = dim := hdim _ (List.getElem_mem htx)
  have hrow1 : (x[t + 1]).length = dim := hdim _ (List.getElem_mem htx1)
  have houter : (diffLayer x).getD t [] =
      List.zipWith (fun a b => (-1 : ℚ) * a + 1 * b) x[t] x[t + 1] := by
    rw [List.getD_eq_getElem _ _ ht2]
    simp only [diffLayer, conv2d21]
    rw [List.getElem_zipWith, List.getElem_tail]
  rw [houter]
  have hdz : d < (List.zipWith (fun a b => (-1 : ℚ) * a + 1 * b)
      x[t] x[t + 1]).length := by
    rw [List.length_zipWith, hrow0, hrow1]
    simpa using hd
  have hd0 : d < (x[t]).length := by rw [hrow0]; exact hd
  have hd1 : d < (x[t + 1]).length := by rw [hrow1]; exact hd
  rw [List.getD_eq_getElem _ _ hdz,
    List.getD_eq_getElem _ _ htx1, List.getD_eq_getElem _ _ htx,
    List.getD_eq_getElem _ _ hd1, List.getD_eq_getElem _ _ hd0,
    List.getElem_zipWith]
  ring

/-- Witness for diffLayer_eq_torch_diff on the concrete input
[[1, 2], [4, 7], [0, 1]] at t = 0, d = 1. -/
theorem diffLayer_eq_torch_diff_witness :
    (diffLayer [[(1 : ℚ), 2], [4, 7], [0, 1]]).length =
        ([[(1 : ℚ), 2], [4, 7], [0, 1]] : List (List ℚ)).length - 1 ∧
    ((diffLayer [[(1 : ℚ), 2], [4, 7], [0, 1]]).getD 0 []).getD 1 0 =
      (([[(1 : ℚ), 2], [4, 7], [0, 1]] : List (List ℚ)).getD 1 []).getD 1 0 -
        (([[(1 : ℚ), 2], [4, 7], [0, 1]] : List (List ℚ)).getD 0 []).getD 1 0 :=
  diffLayer_eq_torch_diff [[(1 : ℚ), 2], [4, 7], [0, 1]] 2 0 1
    (by decide) (by decide) (by decide) (by decide)

/-- C4: voiced/unvoiced excitation rule of SineGen.forward: the voicing
flag uv[t] is 1 exactly when f0[t] > voiced_threshold and 0 otherwise;
the returned excitation sine_waves * uv + noise carries noise std factor
noise_std at voiced steps and sine_amp/3 at unvoiced steps, so at every
unvoiced step the harmonic sine contribution is exactly zero and the
excitation is noise alone. -/
theorem sineGen_forward_uv (sr amp nstd thr r k : ℝ) (f0 eps : ℕ → ℝ) (t : ℕ) :
    ((uvFlag thr f0 t = 1 ↔ thr < f0 t) ∧
      (uvFlag thr f0 t = 1 ∨ uvFlag thr f0 t = 0)) ∧
    (thr < f0 t →
      sineGenOut amp nstd thr f0
          (fun u => Real.sin
            (shiftedPhase (radValues sr (fun i => f0 i * k) r) u * (2 * π)))
          eps t =
        Real.sin (shiftedPhase (radValues sr (fun i => f0 i * k) r) t * (2 * π)) *
            amp + nstd * eps t) ∧
    (¬ thr < f0 t →
      sineGenOut amp nstd thr f0
          (fun u => Real.sin
            (shiftedPhase (radValues sr (fun i => f0 i * k) r) u * (2 * π)))
          eps t =
        amp / 3 * eps t) := by
  refine ⟨⟨⟨?_, ?_⟩, ?_⟩, ?_, ?_⟩
  · intro h1
    by_contra hc
    simp [uvFlag, hc] at h1
  · intro h
    simp [uvFlag, h]
  · by_cases h : thr < f0 t
    · left; simp [uvFlag, h]
    · right; simp [uvFlag, h]
  · intro h
    simp only [sineGenOut, noiseAmp, uvFlag, if_pos h]
    ring
  · intro h
    simp only [sineGenOut, noiseAmp, uvFlag, if_neg h]
    ring

/-- Witness for sineGen_forward_uv at an unvoiced step: threshold 0 and
f0 constantly 0, so the excitation is (sine_amp/3) times the noise
sample. -/
theorem sineGen_forward_uv_witness :
    sineGenOut 3 (1 / 100 : ℝ) 0 (fun _ => 0)
        (fun u => Real.sin
          (shiftedPhase (radValues 1 (fun _ => (0 : ℝ) * 1) 0) u * (2 * π)))
        (fun _ => 2) 0 =
      (3 : ℝ) / 3 * 2 :=
  (sineGen_forward_uv 1 3 (1 / 100) 0 0 1 (fun _ => 0) (fun _ => 2) 0).2.2
    (lt_irrefl 0)

/-- C5: harmonic structure of the source: fn multiplies f0 elementwise by
the row [1, 2, ..., harmonic_num + 1], so the channel for integer k in
1..harmonic_num+1 carries k * f0; Generator instantiates
SourceModuleHnNSF with harmonic_num = 8, giving 9 harmonic components,
which l_linear (Linear(9, 1)) merges into one affine combination that
l_tanh maps through tanh. -/
theorem harmonic_structure (v b : ℝ) (w : List ℝ) (k j : ℕ)
    (hk1 : 1 ≤ k) (hk9 : k ≤ generatorHarmonicNum + 1)
    (hw : w.length = generatorHarmonicNum + 1) (hj : j < 9) :
    generatorHarmonicNum = 8 ∧
    (harmonicRow generatorHarmonicNum v).length = 9 ∧
    (harmonicRow generatorHarmonicNum v).getD (k - 1) 0 = (k : ℝ) * v ∧
    Real.tanh (linearMerge w b (harmonicRow generatorHarmonicNum v)) =
      Real.tanh ((List.zipWith (fun wi si => wi * si) w
        (harmonicRow generatorHarmonicNum v)).sum + b) ∧
    (List.zipWith (fun wi si => wi * si) w
        (harmonicRow generatorHarmonicNum v)).getD j 0 =
      w.getD j 0 * (((j + 1 : ℕ) : ℝ) * v) := by
  have hlen : (harmonicRow generatorHarmonicNum v).length = 9 := by
    simp [harmonicRow, generatorHarmonicNum]
  refine ⟨rfl, hlen, ?_, rfl, ?_⟩
  · have hk : k - 1 < (harmonicRow generatorHarmonicNum v).length := by
      rw [hlen]
      simp [generatorHarmonicNum] at hk9
      omega
    rw [List.getD_eq_getElem _ _ hk]
    simp only [harmonicRow, List.getElem_map, List.getElem_range]
    have : k - 1 + 1 = k := by omega
    rw [this, mul_comm]
  · have hjz : j < (List.zipWith (fun wi si => wi * si) w
        (harmonicRow generatorHarmonicNum v)).length := by
      rw [List.length_zipWith, hw, hlen]
      simp [generatorHarmonicNum]
      omega
    have hjw : j < w.length := by rw [hw]; simp [generatorHarmonicNum]; omega
    have hjh : j < (harmonicRow generatorHarmonicNum v).length := by
      rw [hlen]; exact hj
    rw [List.getD_eq_getElem _ _ hjz, List.getD_eq_getElem _ _ hjw,
      List.getElem_zipWith]
    simp only [harmonicRow, List.getElem_map, List.getElem_range]
    ring

/-- Witness for harmonic_structure with v = 2, b = 0, unit weights,
k = 3, j = 0. -/
theorem harmonic_structure_witness :
    generatorHarmonicNum = 8 ∧
    (harmonicRow generatorHarmonicNum (2 : ℝ)).length = 9 ∧
    (harmonicRow generatorHarmonicNum (2 : ℝ)).getD (3 - 1) 0 = ((3 : ℕ) : ℝ) * 2 ∧
    Real.tanh (linearMerge (List.replicate 9 (1 : ℝ)) 0
        (harmonicRow generatorHarmonicNum 2)) =
      Real.tanh ((List.zipWith (fun wi si => wi * si) (List.replicate 9 (1 : ℝ))
        (harmonicRow generatorHarmonicNum 2)).sum + 0) ∧
    (List.zipWith (fun wi si => wi * si) (List.replicate 9 (1 : ℝ))
        (harmonicRow generatorHarmonicNum 2)).getD 0 0 =
      (List.replicate 9 (1 : ℝ)).getD 0 0 * (((0 + 1 : ℕ) : ℝ) * 2) :=
  harmonic_structure 2 0 (List.replicate 9 1) 3 0
    (by decide) (by decide) (by decide) (by decide)

/-- C6: load_model switches the generator to eval mode and removes the
weight-norm reparameterization from every upsampling ConvTranspose1d,
every residual block, conv_pre and conv_post, so the module handed to
torch.onnx.export carries no weight-norm reparameterization. -/
theorem load_model_removes_weight_norm (nUps nRes : ℕ) :
    (loadModel nUps nRes).evalMode = true ∧
    (loadModel nUps nRes).convPre = ⟨false⟩ ∧
    (loadModel nUps nRes).ups = List.replicate nUps ⟨false⟩ ∧
    (loadModel nUps nRes).resblocks = List.replicate nRes ⟨false⟩ ∧
    (loadModel nUps nRes).convPost = ⟨false⟩ := by
  refine ⟨rfl, rfl, ?_, ?_, rfl⟩
  · simp [loadModel, GeneratorMod.removeWeightNorm, GeneratorMod.evalMode!,
      GeneratorMod.init, List.map_replicate]
  · simp [loadModel, GeneratorMod.removeWeightNorm, GeneratorMod.evalMode!,
      GeneratorMod.init, List.map_replicate, ResBlockMod.removeWeightNorm]

/-- C7: simplify validates the simplified graph: the first output value
info is rewritten keeping its name, with element type FLOAT and shape
(first input dim_value, "n_samples"); the simplified model is saved to
the target exactly when the simplifier check succeeds, and otherwise the
assertion "Simplified ONNX model could not be validated" is raised and
nothing is written. -/
theorem simplify_validates (simpFn : OnnxGraph → OnnxGraph × Bool)
    (g : OnnxGraph) (_ho : g.output ≠ []) (_hi : g.input ≠ []) :
    ((fixOutput g).output.headD emptyValueInfo).name =
        (g.output.headD emptyValueInfo).name ∧
    ((fixOutput g).output.headD emptyValueInfo).elemType = TensorProtoFloat ∧
    ((fixOutput g).output.headD emptyValueInfo).shape =
      [ShapeDim.value (((g.input.headD emptyValueInfo).shape.headD
          (ShapeDim.value 0)).dimValue), ShapeDim.param "n_samples"] ∧
    ((∃ m, simplifyExport simpFn g = Except.ok m) ↔
      (simpFn (fixOutput g)).2 = true) ∧
    ((simpFn (fixOutput g)).2 = false →
      simplifyExport simpFn g =
        Except.error "Simplified ONNX model could not be validated") := by
  refine ⟨rfl, rfl, rfl, ?_, ?_⟩
  · constructor
    · rintro ⟨m, hm⟩
      by_contra hc
      rw [Bool.not_eq_true] at hc
      simp [simplifyExport, hc] at hm
    · intro hc
      exact ⟨(simpFn (fixOutput g)).1, by simp [simplifyExport, hc]⟩
  · intro hc
    simp [simplifyExport, hc]

/-- Witness for simplify_validates on a one-input one-output graph with a
simplifier whose check fails: the assertion message is raised. -/
theorem simplify_validates_witness :
    simplifyExport (fun m => (m, false))
        ⟨[⟨"mel", 1, [ShapeDim.value 1, ShapeDim.param "n_frames"]⟩],
          [⟨"waveform", 1, [ShapeDim.value 0]⟩]⟩ =
      Except.error "Simplified ONNX model could not be validated" :=
  (simplify_validates (fun m => (m, false))
      ⟨[⟨"mel", 1, [ShapeDim.value 1, ShapeDim.param "n_frames"]⟩],
        [⟨"waveform", 1, [ShapeDim.value 0]⟩]⟩
      (List.cons_ne_nil _ _) (List.cons_ne_nil _ _)).2.2.2.2 rfl

/-- C8: the script entry point first runs torch.onnx.export to
onnx/assets/nsf_hifigan.onnx with opset 11, input names mel and f0 each
with dynamic axis n_frames on dimension 1, and output name waveform, and
only afterwards calls simplify with source and target both equal to that
path, so the simplified graph overwrites the exported file in place. -/
theorem main_export_then_simplify :
    mainSteps =
      [ScriptStep.exportCall
        { path := "onnx/assets/nsf_hifigan.onnx"
          opsetVersion := 11
          inputNames := ["mel", "f0"]
          outputNames := ["waveform"]
          dynamicAxes := [("mel", [(1, "n_frames")]), ("f0", [(1, "n_frames")])] },
        ScriptStep.simplifyCall "onnx/assets/nsf_hifigan.onnx"
          "onnx/assets/nsf_hifigan.onnx"] ∧
    ∃ p, mainSteps.getD 0 (ScriptStep.simplifyCall "" "") = exportStep p ∧
      mainSteps.getD 1 (ScriptStep.simplifyCall "" "") =
        ScriptStep.simplifyCall p p :=
  ⟨rfl, "onnx/assets/nsf_hifigan.onnx", rfl, rfl⟩

lemma real_tanh_lt_one (x : ℝ) : Real.tanh x < 1 := by
  rw [Real.tanh_eq_sinh_div_cosh, div_lt_one (Real.cosh_pos x)]
  exact Real.sinh_lt_cosh x

lemma neg_one_lt_real_tanh (x : ℝ) : -1 < Real.tanh x := by
  have h := real_tanh_lt_one (-x)
  rw [Real.tanh_neg] at h
  linarith

/-- C9: every sample of the waveform returned by Generator.forward (and
hence by NsfHiFiGAN.forward) lies strictly inside (-1, 1): the last
value-producing operations are conv_post followed by torch.tanh, and the
final squeeze is shape-only. -/
theorem generator_output_bounded (convPost : (ℕ → ℝ) → ℕ → ℝ)
    (body : (ℕ → ℕ → ℝ) → (ℕ → ℝ) → ℕ → ℝ)
    (x : ℕ → ℝ) (mel : ℕ → ℕ → ℝ) (f0 : ℕ → ℝ) (t : ℕ) :
    (-1 < Real.tanh (generatorPreTanh convPost x t) ∧
      Real.tanh (generatorPreTanh convPost x t) < 1) ∧
    (-1 < Real.tanh (nsfPreTanh convPost body mel f0 t) ∧
      Real.tanh (nsfPreTanh convPost body mel f0 t) < 1) :=
  ⟨⟨neg_one_lt_real_tanh _, real_tanh_lt_one _⟩,
    ⟨neg_one_lt_real_tanh _, real_tanh_lt_one _⟩⟩

/-- C10: NsfHiFiGAN.forward transposes the mel input from
(batch, n_frames, num_mels) to (batch, num_mels, n_frames), multiplies
every element by the constant 2.30259, and passes the result to the
generator while forwarding f0 unchanged. -/
theorem nsf_forward_mel_preprocess (gen : (ℕ → ℕ → ℝ) → (ℕ → ℝ) → (ℕ → ℝ))
    (mel : ℕ → ℕ → ℝ) (f0 : ℕ → ℝ) (m t : ℕ) :
    melPre mel m t = 2.30259 * mel t m ∧
    nsfForward gen mel f0 = gen (melPre mel) f0 := by
  constructor
  · simp only [melPre, transposeMel]
    ring
  · rfl

end NsfHifigan
